import Mathlib

/-!
Verification of `sync_rules.py`: the directive parser (`parse_base_file`)
and the output composer (`build_outputs`).

A Python `str` line is embedded as a `List Char`.  The parser state is the
pair of the bucket map (an insertion-ordered association list, mirroring a
Python `dict`) and the set of currently active editors (a duplicate-free
list, mirroring a Python `set`).  Exceptions (`ValueError`) are embedded as
`Except` values carrying the message.
-/

set_option maxHeartbeats 1000000

namespace SyncRules

/-- A single text line of the source document, as a list of characters. -/
abbrev Line := List Char

/-- Whitespace characters stripped by Python's `str.strip` / `str.rstrip`. -/
def isWS (c : Char) : Bool :=
  c == ' ' || c == '\t' || c == '\n' || c == '\r' || c == '\x0b' || c == '\x0c'

/-- Python `str.rstrip()`: drop trailing whitespace characters. -/
def rstrip (l : Line) : Line :=
  (l.reverse.dropWhile isWS).reverse

/-- Python `str.strip()`: drop leading and trailing whitespace characters. -/
def strip (l : Line) : Line :=
  rstrip (l.dropWhile isWS)

/-- Python `str.startswith`: `startsWith l p` holds when `p` is a prefix of `l`. -/
def startsWith : Line → Line → Bool
  | _, [] => true
  | [], _ :: _ => false
  | c :: cs, p :: ps => c == p && startsWith cs ps

/-- Python `str.split(",")`: split on every comma, keeping empty pieces. -/
def splitComma : Line → List Line
  | [] => [[]]
  | c :: rest =>
    if c = ',' then [] :: splitComma rest
    else
      match splitComma rest with
      | [] => [[c]]
      | s :: ss => (c :: s) :: ss

/-- The special shared identifier `__ALL__` of `parse_base_file`. -/
def ALL : Line := ['_', '_', 'A', 'L', 'L', '_', '_']

/-- The literal `::only ` opening an Open directive. -/
def openMarker : Line := [':', ':', 'o', 'n', 'l', 'y', ' ']

/-- The literal `::end` opening a Close directive. -/
def closeMarker : Line := [':', ':', 'e', 'n', 'd']

/-- The editor set of an Open directive line: drop the marker, split on
commas, strip each piece, discard empty pieces, and de-duplicate
(the Python code builds a `set`). -/
def parseEditors (l : Line) : List Line :=
  (((splitComma (l.drop openMarker.length)).map strip).filter
    (fun e => !e.isEmpty)).dedup

/-- The bucket map `editor -> list of lines`, as an insertion-ordered
association list with distinct keys (a Python `dict`). -/
abbrev Buckets := List (Line × List Line)

/-- Dictionary lookup: `getB b k` is the value stored under key `k`. -/
def getB : Buckets → Line → Option (List Line)
  | [], _ => none
  | (k', v) :: rest, k => if k' = k then some v else getB rest k

/-- Python `dict.get(k, [])`. -/
def getD (b : Buckets) (k : Line) : List Line :=
  (getB b k).getD []

/-- Python `dict.setdefault(k, [])`: create an empty entry for `k` at the
end unless one already exists. -/
def setdefault (b : Buckets) (k : Line) : Buckets :=
  match getB b k with
  | some _ => b
  | none => b ++ [(k, [])]

/-- `setdefault` for every key of a list, in order. -/
def setdefaults (b : Buckets) (eds : List Line) : Buckets :=
  eds.foldl setdefault b

/-- Python `buckets.setdefault(k, []).append(line)`: append `line` to the
bucket of `k`, creating the bucket when missing. -/
def appendB : Buckets → Line → Line → Buckets
  | [], k, l => [(k, [l])]
  | (k', v) :: rest, k, l =>
    if k' = k then (k', v ++ [l]) :: rest else (k', v) :: appendB rest k l

/-- Append one content line to the bucket of every active editor. -/
def appendAll (b : Buckets) (cur : List Line) (l : Line) : Buckets :=
  cur.foldl (fun b' ed => appendB b' ed l) b

/-- Append each of `lines`, in order, to the bucket of every active editor. -/
def appendAllLines (b : Buckets) (cur : List Line) (lines : List Line) : Buckets :=
  lines.foldl (fun b' l => appendAll b' cur l) b

/-- The loop state of `parse_base_file`: the bucket map and the set of
currently active editors. -/
structure ParseState where
  buckets : Buckets
  current : List Line
  deriving DecidableEq, Repr

/-- The fixed text of the `ValueError` raised on a malformed directive. -/
def errMsgHead : Line :=
  "No editors specified in directive at line: ".toList

/-- The full `ValueError` message, referencing the offending line. -/
def errMsg (l : Line) : Line := errMsgHead ++ l

/-- One iteration of the loop body of `parse_base_file` on one line. -/
def step (st : ParseState) (line : Line) : Except Line ParseState :=
  if startsWith line openMarker then
    let editors := parseEditors line
    if editors.isEmpty then
      Except.error (errMsg line)
    else
      Except.ok ⟨setdefaults st.buckets editors, editors⟩
  else if startsWith line closeMarker then
    Except.ok ⟨st.buckets, [ALL]⟩
  else
    Except.ok ⟨appendAll st.buckets st.current line, st.current⟩

/-- Run the parser loop over a list of lines from a given state. -/
def procList (st : ParseState) : List Line → Except Line ParseState
  | [] => Except.ok st
  | l :: rest =>
    match step st l with
    | Except.error e => Except.error e
    | Except.ok st' => procList st' rest

/-- The initial loop state: the shared bucket exists and is active. -/
def initState : ParseState := ⟨[(ALL, [])], [ALL]⟩

/-- Embedding of `parse_base_file`: the document is the list of its lines
(each already stripped of its trailing newline, as by `raw.rstrip("\n")`). -/
def parse_base_file (doc : List Line) : Except Line Buckets :=
  match procList initState doc with
  | Except.error e => Except.error e
  | Except.ok st => Except.ok st.buckets

/-- The composed text for one editor, from `build_outputs`:
`"\n".join(common_lines + buckets.get(editor, [])).rstrip() + "\n"`
(`joinNL` is the join, `rstrip` the strip). -/
def joinNL : List Line → Line
  | [] => []
  | [l] => l
  | l :: l' :: rest => l ++ '\n' :: joinNL (l' :: rest)

/-- The composed output string for a single editor. -/
def compose (b : Buckets) (ed : Line) : Line :=
  rstrip (joinNL (getD b ALL ++ getD b ed)) ++ ['\n']

/-- Embedding of `build_outputs`: one composed string per registry target,
in registry order (the destination paths are opaque and never affect the
composed text, so the registry is embedded as its list of editor keys). -/
def build_outputs (b : Buckets) (reg : List Line) : List (Line × Line) :=
  reg.map (fun ed => (ed, compose b ed))

/-- The core pipeline of `main`: parse, then compose; on a `ValueError`
the run aborts (`sys.exit`) and `build_outputs` / `write_outputs` are
never reached, so no output record exists for the run. -/
def run (doc : List Line) (reg : List Line) : Except Line (List (Line × Line)) :=
  match parse_base_file doc with
  | Except.error e => Except.error e
  | Except.ok b => Except.ok (build_outputs b reg)

/-- A line is a directive when it starts with either marker. -/
def isDirective (l : Line) : Bool :=
  startsWith l openMarker || startsWith l closeMarker

/-- A malformed Open directive: the marker with an empty editor list. -/
def isMalformed (l : Line) : Bool :=
  startsWith l openMarker && (parseEditors l).isEmpty

instance {ε α : Type} [DecidableEq ε] [DecidableEq α] : DecidableEq (Except ε α) :=
  fun x y =>
    match x, y with
    | Except.error a, Except.error b =>
      if h : a = b then isTrue (by rw [h]) else
        isFalse (fun hc => h (Except.error.inj hc))
    | Except.ok a, Except.ok b =>
      if h : a = b then isTrue (by rw [h]) else
        isFalse (fun hc => h (Except.ok.inj hc))
    | Except.error _, Except.ok _ => isFalse (fun hc => Except.noConfusion hc)
    | Except.ok _, Except.error _ => isFalse (fun hc => Except.noConfusion hc)

/-- Modelled from the spec's Output Composer contract, in its words: take
the shared bucket's lines, then the target's own bucket's lines (the empty
sequence if the target has no bucket); join with a single newline between
consecutive lines; strip all trailing whitespace and newlines from the
joined result; then append exactly one trailing newline. -/
def composeSpec (b : Buckets) (t : Line) : Line :=
  let sharedSeq : List Line := (getB b ALL).getD []
  let ownSeq : List Line := (getB b t).getD []
  let joined : Line := joinNL (sharedSeq ++ ownSeq)
  rstrip joined ++ ['\n']

theorem startsWith_iff (l p : Line) : startsWith l p = true ↔ ∃ t, l = p ++ t := by
  induction p generalizing l with
  | nil => simp [startsWith]
  | cons c ps ih =>
    cases l with
    | nil => simp [startsWith]
    | cons a as =>
      simp only [startsWith, Bool.and_eq_true, beq_iff_eq, ih, List.cons_append,
        List.cons.injEq]
      constructor
      · rintro ⟨rfl, t, rfl⟩; exact ⟨t, rfl, rfl⟩
      · rintro ⟨t, rfl, rfl⟩; exact ⟨rfl, t, rfl⟩

theorem close_not_open (l : Line) (h : startsWith l closeMarker = true) :
    startsWith l openMarker = false := by
  rcases (startsWith_iff l closeMarker).mp h with ⟨t, rfl⟩
  cases hop : startsWith (closeMarker ++ t) openMarker with
  | false => rfl
  | true =>
    rcases (startsWith_iff _ _).mp hop with ⟨s, hs⟩
    simp [closeMarker, openMarker, List.cons.injEq] at hs

theorem getB_appendB_self (b : Buckets) (k l : Line) :
    getB (appendB b k l) k = some (getD b k ++ [l]) := by
  induction b with
  | nil => simp [appendB, getB, getD]
  | cons p rest ih =>
    obtain ⟨k', v⟩ := p
    by_cases h : k' = k
    · subst h; simp [appendB, getB, getD]
    · simp [appendB, getB, getD, h, ih]

theorem getB_appendB_ne (b : Buckets) (k l k' : Line) (h : k' ≠ k) :
    getB (appendB b k l) k' = getB b k' := by
  induction b with
  | nil => simp [appendB, getB, Ne.symm h]
  | cons p rest ih =>
    obtain ⟨k₂, v⟩ := p
    simp only [appendB]
    by_cases h2 : k₂ = k
    · have hne : ¬(k₂ = k') := fun hh => h (hh.symm.trans h2)
      rw [if_pos h2]
      simp [getB, hne]
    · rw [if_neg h2]
      simp [getB, ih]

theorem appendAll_cons (b : Buckets) (e : Line) (rest : List Line) (l : Line) :
    appendAll b (e :: rest) l = appendAll (appendB b e l) rest l := rfl

theorem getB_appendAll_not_mem (cur : List Line) (b : Buckets) (l id : Line)
    (h : id ∉ cur) : getB (appendAll b cur l) id = getB b id := by
  induction cur generalizing b with
  | nil => rfl
  | cons e rest ih =>
    rw [appendAll_cons, ih (appendB b e l) (fun hm => h (List.mem_cons_of_mem _ hm)),
      getB_appendB_ne b e l id (fun hh => h (hh ▸ List.mem_cons_self e rest))]

theorem getB_appendAll_mem (cur : List Line) (b : Buckets) (l id : Line)
    (hnd : cur.Nodup) (h : id ∈ cur) :
    getB (appendAll b cur l) id = some (getD b id ++ [l]) := by
  induction cur generalizing b with
  | nil => cases h
  | cons e rest ih =>
    rw [appendAll_cons]
    rcases List.mem_cons.mp h with rfl | hmem
    · rw [getB_appendAll_not_mem rest (appendB b id l) l id (List.nodup_cons.mp hnd).1,
        getB_appendB_self]
    · have hne : id ≠ e := fun hh => (List.nodup_cons.mp hnd).1 (hh ▸ hmem)
      rw [ih (appendB b e l) (List.nodup_cons.mp hnd).2 hmem]
      simp [getD, getB_appendB_ne b e l id hne]

theorem appendAllLines_cons (b : Buckets) (cur : List Line) (l : Line)
    (rest : List Line) :
    appendAllLines b cur (l :: rest) = appendAllLines (appendAll b cur l) cur rest := rfl

theorem getB_appendAllLines_not_mem (lines : List Line) (b : Buckets)
    (cur : List Line) (id : Line) (h : id ∉ cur) :
    getB (appendAllLines b cur lines) id = getB b id := by
  induction lines generalizing b with
  | nil => rfl
  | cons l rest ih =>
    rw [appendAllLines_cons, ih (appendAll b cur l),
      getB_appendAll_not_mem cur b l id h]

theorem getD_appendAllLines_mem (lines : List Line) (b : Buckets)
    (cur : List Line) (id : Line) (hnd : cur.Nodup) (h : id ∈ cur) :
    getD (appendAllLines b cur lines) id = getD b id ++ lines := by
  induction lines generalizing b with
  | nil => simp [appendAllLines]
  | cons l rest ih =>
    rw [appendAllLines_cons, ih (appendAll b cur l)]
    simp [getD, getB_appendAll_mem cur b l id hnd h]

theorem getB_append_single (b : Buckets) (k : Line) (h : getB b k = none) :
    getB (b ++ [(k, [])]) k = some [] := by
  induction b with
  | nil => simp [getB]
  | cons p rest ih =>
    obtain ⟨k', v⟩ := p
    by_cases hk : k' = k
    · simp [getB, hk] at h
    · simp only [getB, hk, if_false, List.cons_append] at h ⊢
      exact ih h

theorem getB_append_other (b : Buckets) (k id : Line) (hne : id ≠ k) :
    getB (b ++ [(k, [])]) id = getB b id := by
  induction b with
  | nil => simp [getB, Ne.symm hne]
  | cons p rest ih =>
    obtain ⟨k', v⟩ := p
    by_cases hk : k' = id <;> simp [getB, hk, ih]

theorem getB_setdefault_self (b : Buckets) (k : Line) :
    getB (setdefault b k) k = some (getD b k) := by
  unfold setdefault
  cases hg : getB b k with
  | some v => simp [getD, hg]
  | none => simp [getD, hg, getB_append_single b k hg]

theorem getB_setdefault_ne (b : Buckets) (k id : Line) (hne : id ≠ k) :
    getB (setdefault b k) id = getB b id := by
  unfold setdefault
  cases hg : getB b k with
  | some v => rfl
  | none => exact getB_append_other b k id hne

theorem setdefaults_cons (b : Buckets) (e : Line) (rest : List Line) :
    setdefaults b (e :: rest) = setdefaults (setdefault b e) rest := rfl

theorem getB_setdefaults_not_mem (eds : List Line) (b : Buckets) (id : Line)
    (h : id ∉ eds) : getB (setdefaults b eds) id = getB b id := by
  induction eds generalizing b with
  | nil => rfl
  | cons e rest ih =>
    rw [setdefaults_cons, ih (setdefault b e) (fun hm => h (List.mem_cons_of_mem _ hm)),
      getB_setdefault_ne b e id (fun hh => h (hh ▸ List.mem_cons_self e rest))]

theorem getB_setdefaults_mem (eds : List Line) (b : Buckets) (id : Line)
    (h : id ∈ eds) : getB (setdefaults b eds) id = some (getD b id) := by
  induction eds generalizing b with
  | nil => cases h
  | cons e rest ih =>
    rw [setdefaults_cons]
    by_cases he : id ∈ rest
    · rw [ih (setdefault b e) he]
      by_cases hie : id = e
      · subst hie; simp [getD, getB_setdefault_self b id]
      · simp [getD, getB_setdefault_ne b e id hie]
    · rcases List.mem_cons.mp h with rfl | hm
      · rw [getB_setdefaults_not_mem rest (setdefault b id) id he,
          getB_setdefault_self]
      · exact absurd hm he

theorem getB_setdefaults_isSome (eds : List Line) (b : Buckets) (id : Line)
    (h : (getB b id).isSome = true) :
    (getB (setdefaults b eds) id).isSome = true := by
  by_cases hm : id ∈ eds
  · rw [getB_setdefaults_mem eds b id hm]; rfl
  · rw [getB_setdefaults_not_mem eds b id hm]; exact h

theorem getB_appendB_isSome (b : Buckets) (k l id : Line)
    (h : (getB b id).isSome = true) :
    (getB (appendB b k l) id).isSome = true := by
  by_cases hk : id = k
  · subst hk; rw [getB_appendB_self]; rfl
  · rw [getB_appendB_ne b k l id hk]; exact h

theorem getB_appendAll_isSome (cur : List Line) (b : Buckets) (l id : Line)
    (h : (getB b id).isSome = true) :
    (getB (appendAll b cur l) id).isSome = true := by
  induction cur generalizing b with
  | nil => exact h
  | cons e rest ih =>
    rw [appendAll_cons]
    exact ih (appendB b e l) (getB_appendB_isSome b e l id h)

theorem step_open (st : ParseState) (l : Line)
    (h1 : startsWith l openMarker = true) (h2 : parseEditors l ≠ []) :
    step st l = Except.ok ⟨setdefaults st.buckets (parseEditors l), parseEditors l⟩ := by
  have he : (parseEditors l).isEmpty = false := by
    cases hp : parseEditors l with
    | nil => exact absurd hp h2
    | cons a as => rfl
  simp [step, h1, he]

theorem step_malformed (st : ParseState) (l : Line)
    (h1 : startsWith l openMarker = true) (h2 : parseEditors l = []) :
    step st l = Except.error (errMsg l) := by
  simp [step, h1, h2]

theorem step_close (st : ParseState) (l : Line)
    (h1 : startsWith l closeMarker = true) :
    step st l = Except.ok ⟨st.buckets, [ALL]⟩ := by
  simp [step, close_not_open l h1, h1]

theorem step_content (st : ParseState) (l : Line) (h : isDirective l = false) :
    step st l = Except.ok ⟨appendAll st.buckets st.current l, st.current⟩ := by
  have h' := h
  simp only [isDirective, Bool.or_eq_false_iff] at h'
  simp [step, h'.1, h'.2]

theorem step_cases (st : ParseState) (l : Line) (st₁ : ParseState)
    (h : step st l = Except.ok st₁) :
    (startsWith l openMarker = true ∧ parseEditors l ≠ [] ∧
      st₁ = ⟨setdefaults st.buckets (parseEditors l), parseEditors l⟩) ∨
    (startsWith l openMarker = false ∧ startsWith l closeMarker = true ∧
      st₁ = ⟨st.buckets, [ALL]⟩) ∨
    (isDirective l = false ∧
      st₁ = ⟨appendAll st.buckets st.current l, st.current⟩) := by
  by_cases h1 : startsWith l openMarker = true
  · by_cases h2 : parseEditors l = []
    · rw [step_malformed st l h1 h2] at h
      exact absurd h (fun hc => Except.noConfusion hc)
    · rw [step_open st l h1 h2] at h
      exact Or.inl ⟨h1, h2, (Except.ok.inj h).symm⟩
  · have h1' : startsWith l openMarker = false := by
      cases hb : startsWith l openMarker with
      | false => rfl
      | true => exact absurd hb h1
    by_cases h2 : startsWith l closeMarker = true
    · rw [step_close st l h2] at h
      exact Or.inr (Or.inl ⟨h1', h2, (Except.ok.inj h).symm⟩)
    · have h2' : startsWith l closeMarker = false := by
        cases hb : startsWith l closeMarker with
        | false => rfl
        | true => exact absurd hb h2
      have hd : isDirective l = false := by simp [isDirective, h1', h2']
      rw [step_content st l hd] at h
      exact Or.inr (Or.inr ⟨hd, (Except.ok.inj h).symm⟩)

theorem step_ok_total (st : ParseState) (l : Line) (hm : isMalformed l = false) :
    ∃ st₁, step st l = Except.ok st₁ := by
  by_cases h1 : startsWith l openMarker = true
  · have h2 : parseEditors l ≠ [] := by
      intro hc
      simp [isMalformed, h1, hc] at hm
    exact ⟨_, step_open st l h1 h2⟩
  · have h1' : startsWith l openMarker = false := by
      cases hb : startsWith l openMarker with
      | false => rfl
      | true => exact absurd hb h1
    by_cases h2 : startsWith l closeMarker = true
    · exact ⟨_, step_close st l h2⟩
    · have h2' : startsWith l closeMarker = false := by
        cases hb : startsWith l closeMarker with
        | false => rfl
        | true => exact absurd hb h2
      exact ⟨_, step_content st l (by simp [isDirective, h1', h2'])⟩

theorem procList_cons_eq (st : ParseState) (l : Line) (rest : List Line) :
    procList st (l :: rest) =
      match step st l with
      | Except.error e => Except.error e
      | Except.ok st' => procList st' rest := rfl

theorem procList_append (d₁ d₂ : List Line) :
    ∀ st st₁ : ParseState, procList st d₁ = Except.ok st₁ →
      procList st (d₁ ++ d₂) = procList st₁ d₂ := by
  induction d₁ with
  | nil =>
    intro st st₁ h
    obtain rfl : st = st₁ := Except.ok.inj h
    rfl
  | cons l d ih =>
    intro st st₁ h
    rw [List.cons_append]
    rw [procList_cons_eq] at h ⊢
    cases hs : step st l with
    | error e => rw [hs] at h; exact absurd h (fun hc => Except.noConfusion hc)
    | ok st' =>
      rw [hs] at h
      exact ih st' st₁ h

theorem procList_content (lines : List Line)
    (h : ∀ c ∈ lines, isDirective c = false) : ∀ st : ParseState,
    procList st lines = Except.ok ⟨appendAllLines st.buckets st.current lines, st.current⟩ := by
  induction lines with
  | nil => intro st; rfl
  | cons l rest ih =>
    intro st
    rw [procList_cons_eq, step_content st l (h l (List.mem_cons_self l rest))]
    show procList ⟨appendAll st.buckets st.current l, st.current⟩ rest = _
    rw [ih (fun c hc => h c (List.mem_cons_of_mem _ hc)) ⟨appendAll st.buckets st.current l, st.current⟩]
    rfl

theorem getB_isSome_step (st : ParseState) (l : Line) (st₁ : ParseState) (id : Line)
    (h : step st l = Except.ok st₁) (hs : (getB st.buckets id).isSome = true) :
    (getB st₁.buckets id).isSome = true := by
  rcases step_cases st l st₁ h with ⟨_, _, rfl⟩ | ⟨_, _, rfl⟩ | ⟨_, rfl⟩
  · exact getB_setdefaults_isSome _ _ _ hs
  · exact hs
  · exact getB_appendAll_isSome _ _ _ _ hs

theorem getB_isSome_procList (doc : List Line) :
    ∀ st st' : ParseState, ∀ id : Line, procList st doc = Except.ok st' →
      (getB st.buckets id).isSome = true → (getB st'.buckets id).isSome = true := by
  induction doc with
  | nil =>
    intro st st' id h hs
    obtain rfl : st = st' := Except.ok.inj h
    exact hs
  | cons l rest ih =>
    intro st st' id h hs
    rw [procList_cons_eq] at h
    cases hstep : step st l with
    | error e => rw [hstep] at h; exact absurd h (fun hc => Except.noConfusion hc)
    | ok st₁ =>
      rw [hstep] at h
      exact ih st₁ st' id h (getB_isSome_step st l st₁ id hstep hs)

theorem parseEditors_nodup (l : Line) : (parseEditors l).Nodup :=
  List.nodup_dedup _

theorem procList_error_of_find (doc : List Line) (l : Line)
    (h : doc.find? isMalformed = some l) : ∀ st : ParseState,
    procList st doc = Except.error (errMsg l) := by
  induction doc with
  | nil => simp [List.find?] at h
  | cons d rest ih =>
    intro st
    rw [procList_cons_eq]
    cases hm : isMalformed d with
    | true =>
      have hl : d = l := by
        rw [List.find?_cons_of_pos _ hm] at h
        exact Option.some.inj h
      subst hl
      have h1 : startsWith d openMarker = true := by
        simp only [isMalformed, Bool.and_eq_true] at hm
        exact hm.1
      have h2 : parseEditors d = [] := by
        simp only [isMalformed, Bool.and_eq_true, List.isEmpty_iff] at hm
        exact hm.2
      rw [step_malformed st d h1 h2]
    | false =>
      rw [List.find?_cons_of_neg _ (by simp [hm])] at h
      obtain ⟨st₁, hst⟩ := step_ok_total st d hm
      rw [hst]
      exact ih h st₁

theorem procList_ok_of_no_malformed (doc : List Line)
    (h : ∀ l ∈ doc, isMalformed l = false) : ∀ st : ParseState,
    ∃ st', procList st doc = Except.ok st' := by
  induction doc with
  | nil => exact fun st => ⟨st, rfl⟩
  | cons d rest ih =>
    intro st
    obtain ⟨st₁, hst⟩ := step_ok_total st d (h d (List.mem_cons_self d rest))
    obtain ⟨st', hst'⟩ := ih (fun l hl => h l (List.mem_cons_of_mem _ hl)) st₁
    exact ⟨st', by rw [procList_cons_eq, hst]; exact hst'⟩

theorem not_mentioned_step (st : ParseState) (l : Line) (st₁ : ParseState) (T : Line)
    (h : step st l = Except.ok st₁)
    (hT : startsWith l openMarker = true → T ∉ parseEditors l)
    (hTA : T ≠ ALL) (hcur : T ∉ st.current) (hB : getB st.buckets T = none) :
    T ∉ st₁.current ∧ getB st₁.buckets T = none := by
  rcases step_cases st l st₁ h with ⟨h1, _, rfl⟩ | ⟨_, _, rfl⟩ | ⟨_, rfl⟩
  · exact ⟨hT h1, by rw [getB_setdefaults_not_mem _ _ _ (hT h1)]; exact hB⟩
  · exact ⟨by simp [hTA], hB⟩
  · exact ⟨hcur, by rw [getB_appendAll_not_mem _ _ _ _ hcur]; exact hB⟩

theorem not_mentioned_procList (doc : List Line) :
    ∀ st st' : ParseState, ∀ T : Line, procList st doc = Except.ok st' →
      (∀ l ∈ doc, startsWith l openMarker = true → T ∉ parseEditors l) →
      T ≠ ALL → T ∉ st.current → getB st.buckets T = none →
      T ∉ st'.current ∧ getB st'.buckets T = none := by
  induction doc with
  | nil =>
    intro st st' T h _ _ hcur hB
    obtain rfl : st = st' := Except.ok.inj h
    exact ⟨hcur, hB⟩
  | cons l rest ih =>
    intro st st' T h hment hTA hcur hB
    rw [procList_cons_eq] at h
    cases hstep : step st l with
    | error e => rw [hstep] at h; exact absurd h (fun hc => Except.noConfusion hc)
    | ok st₁ =>
      rw [hstep] at h
      obtain ⟨hc₁, hB₁⟩ := not_mentioned_step st l st₁ T hstep
        (hment l (List.mem_cons_self l rest)) hTA hcur hB
      exact ih st₁ st' T h (fun l' hl' => hment l' (List.mem_cons_of_mem _ hl')) hTA hc₁ hB₁

theorem open_creates_entries (doc : List Line) :
    ∀ st st' : ParseState, procList st doc = Except.ok st' →
      ∀ l ∈ doc, startsWith l openMarker = true →
        ∀ ed ∈ parseEditors l, (getB st'.buckets ed).isSome = true := by
  induction doc with
  | nil => intro st st' _ l hl; cases hl
  | cons d rest ih =>
    intro st st' h l hl hop ed hed
    rw [procList_cons_eq] at h
    cases hstep : step st d with
    | error e => rw [hstep] at h; exact absurd h (fun hc => Except.noConfusion hc)
    | ok st₁ =>
      rw [hstep] at h
      rcases List.mem_cons.mp hl with rfl | hmem
      · have hsome : (getB st₁.buckets ed).isSome = true := by
          rcases step_cases st l st₁ hstep with ⟨_, _, rfl⟩ | ⟨hno, _, _⟩ | ⟨hnd, _⟩
          · show (getB (setdefaults st.buckets (parseEditors l)) ed).isSome = true
            rw [getB_setdefaults_mem _ _ _ hed]; rfl
          · exact absurd hop (by rw [hno]; exact fun hc => Bool.noConfusion hc)
          · exact absurd hop (by
              simp only [isDirective, Bool.or_eq_false_iff] at hnd
              rw [hnd.1]; exact fun hc => Bool.noConfusion hc)
        exact getB_isSome_procList rest st₁ st' ed h hsome
      · exact ih st₁ st' h l hmem hop ed hed

theorem parse_ok_elim (doc : List Line) (b : Buckets)
    (h : parse_base_file doc = Except.ok b) :
    ∃ st', procList initState doc = Except.ok st' ∧ st'.buckets = b := by
  rw [parse_base_file] at h
  cases hp : procList initState doc with
  | error e => rw [hp] at h; exact absurd h (fun hc => Except.noConfusion hc)
  | ok st' => rw [hp] at h; exact ⟨st', rfl, Except.ok.inj h⟩

theorem procList_content' (lines : List Line)
    (h : ∀ c ∈ lines, isDirective c = false) (bk : Buckets) (cur : List Line) :
    procList ⟨bk, cur⟩ lines = Except.ok ⟨appendAllLines bk cur lines, cur⟩ :=
  procList_content lines h ⟨bk, cur⟩

/-- C1: the spec's Example 1 is wrong about the code: for the document
`A`, `::only x`, `B`, `::end`, `C`, the shared bucket is `[A, C]` and x's
bucket is `[B]`, so x's composed output is `A\nC\nB\n` (shared lines first,
then the target's lines), not `A\nB\nC\n` as the example expects. -/
theorem example1_output_order_counterexample :
    parse_base_file
        ["A".toList, "::only x".toList, "B".toList, "::end".toList, "C".toList]
      = Except.ok [(ALL, ["A".toList, "C".toList]), ("x".toList, ["B".toList])] ∧
    compose [(ALL, ["A".toList, "C".toList]), ("x".toList, ["B".toList])] "x".toList
      = "A\nC\nB\n".toList ∧
    "A\nC\nB\n".toList ≠ "A\nB\nC\n".toList := by
  decide

/-- C1 (amended): for the document `A`, `::only x`, `B`, `::end`, `C` and
the registry `{x, y}`, the run produces `A\nC\nB\n` for x and `A\nC\n`
for y. -/
theorem example1_outputs :
    run ["A".toList, "::only x".toList, "B".toList, "::end".toList, "C".toList]
        ["x".toList, "y".toList]
      = Except.ok [("x".toList, "A\nC\nB\n".toList), ("y".toList, "A\nC\n".toList)] := by
  decide

/-- C2: for every bucket map and every target of the registry, the composed
output equals the spec's formula: shared lines then the target's own lines
(empty when absent), joined by single newlines, trailing whitespace and
newlines stripped, and exactly one newline appended. -/
theorem build_outputs_eq_spec (b : Buckets) (reg : List Line) :
    build_outputs b reg = reg.map (fun t => (t, composeSpec b t)) := rfl

/-- C3: the parser fails exactly on documents containing a malformed Open
directive (the `::only ` marker with an empty identifier list); the error is
raised on the first such line, carries that line's literal text, and in that
case the run yields no output record at all. -/
theorem malformed_error_characterization (doc reg : List Line) :
    ((∃ e, parse_base_file doc = Except.error e) ↔ ∃ l ∈ doc, isMalformed l = true) ∧
    (∀ l, doc.find? isMalformed = some l →
      parse_base_file doc = Except.error (errMsg l) ∧
      run doc reg = Except.error (errMsg l)) ∧
    (doc.find? isMalformed = none →
      ∃ b, parse_base_file doc = Except.ok b ∧
        run doc reg = Except.ok (build_outputs b reg)) := by
  have h2 : ∀ l, doc.find? isMalformed = some l →
      parse_base_file doc = Except.error (errMsg l) ∧
      run doc reg = Except.error (errMsg l) := by
    intro l hl
    have hp := procList_error_of_find doc l hl initState
    constructor
    · rw [parse_base_file, hp]
    · rw [run, parse_base_file, hp]
  have h3 : doc.find? isMalformed = none →
      ∃ b, parse_base_file doc = Except.ok b ∧
        run doc reg = Except.ok (build_outputs b reg) := by
    intro hn
    have hall : ∀ l ∈ doc, isMalformed l = false := by
      intro l hl
      have := List.find?_eq_none.mp hn l hl
      cases hb : isMalformed l with
      | false => rfl
      | true => exact absurd hb this
    obtain ⟨st', hst'⟩ := procList_ok_of_no_malformed doc hall initState
    refine ⟨st'.buckets, ?_, ?_⟩
    · rw [parse_base_file, hst']
    · rw [run, parse_base_file, hst']
  refine ⟨?_, h2, h3⟩
  constructor
  · rintro ⟨e, he⟩
    cases hf : doc.find? isMalformed with
    | some l =>
      refine ⟨l, List.mem_of_find?_eq_some hf, ?_⟩
      have := List.find?_some hf
      exact this
    | none =>
      obtain ⟨b, hb, _⟩ := h3 hf
      rw [hb] at he
      exact absurd he (fun hc => Except.noConfusion hc)
  · rintro ⟨l, hl, hm⟩
    cases hf : doc.find? isMalformed with
    | some l' => exact ⟨errMsg l', (h2 l' hf).1⟩
    | none => exact absurd hm (by simpa using List.find?_eq_none.mp hf l hl)

/-- C3 witness: at the spec's Example 3 input `::only   ,  ,` the parser
raises, the message carries the line, and the run yields no outputs. -/
theorem malformed_error_characterization_witness :
    parse_base_file ["::only   ,  ,".toList]
      = Except.error (errMsg "::only   ,  ,".toList) ∧
    run ["::only   ,  ,".toList] ["x".toList]
      = Except.error (errMsg "::only   ,  ,".toList) :=
  (malformed_error_characterization ["::only   ,  ,".toList] ["x".toList]).2.1
    "::only   ,  ,".toList (by decide)

/-- C6: every line starting with `::end` acts exactly like the bare close
marker: it resets the active tag set to the shared singleton, and when the
active tag set is already the shared singleton the whole parser state is
unchanged. -/
theorem close_resets_scope (st : ParseState) (l : Line)
    (h : startsWith l closeMarker = true) :
    step st l = step st closeMarker ∧
    step st l = Except.ok ⟨st.buckets, [ALL]⟩ ∧
    (st.current = [ALL] → step st l = Except.ok st) := by
  have h1 := step_close st l h
  have h2 := step_close st closeMarker (by decide)
  refine ⟨by rw [h1, h2], h1, ?_⟩
  intro hcur
  rw [h1, ← hcur]

/-- C6 witness: the line `::end extra` with trailing text, from the initial
state (already in shared scope). -/
theorem close_resets_scope_witness :
    startsWith "::end extra".toList closeMarker = true ∧
    (step initState "::end extra".toList = step initState closeMarker ∧
     step initState "::end extra".toList = Except.ok ⟨initState.buckets, [ALL]⟩ ∧
     (initState.current = [ALL] → step initState "::end extra".toList = Except.ok initState)) :=
  ⟨by decide, close_resets_scope initState "::end extra".toList (by decide)⟩

/-- C9: the composed output of a target depends only on the shared entry
and that target's entry of the bucket map, and the targets of a registry
can be composed in any order (composition is a pure per-target map). -/
theorem compose_noninterference (b₁ b₂ : Buckets) (T : Line)
    (hA : getB b₁ ALL = getB b₂ ALL) (hT : getB b₁ T = getB b₂ T) :
    compose b₁ T = compose b₂ T ∧
    ∀ reg reg' : List Line, reg.Perm reg' →
      (build_outputs b₁ reg).Perm (build_outputs b₁ reg') := by
  constructor
  · simp only [compose, getD, hA, hT]
  · intro reg reg' hp
    exact hp.map _

/-- C9 witness: two bucket maps that agree on the shared entry and on
target x but differ elsewhere compose identically for x. -/
theorem compose_noninterference_witness :
    getB [(ALL, []), ("z".toList, ["Q".toList])] ALL = getB [(ALL, [])] ALL ∧
    getB [(ALL, []), ("z".toList, ["Q".toList])] "x".toList = getB [(ALL, [])] "x".toList ∧
    (compose [(ALL, []), ("z".toList, ["Q".toList])] "x".toList
        = compose [(ALL, [])] "x".toList ∧
     ∀ reg reg' : List Line, reg.Perm reg' →
       (build_outputs [(ALL, []), ("z".toList, ["Q".toList])] reg).Perm
         (build_outputs [(ALL, []), ("z".toList, ["Q".toList])] reg')) :=
  ⟨by decide, by decide,
    compose_noninterference [(ALL, []), ("z".toList, ["Q".toList])] [(ALL, [])]
      "x".toList (by decide) (by decide)⟩

/-- C4: the claim fails as stated, on two counts.  For the directive-free
document `A`, `` (a final blank line) the composed output is `A\n`, not
the joined-lines-plus-newline `A\n\n`, because `build_outputs` strips all
trailing whitespace before appending the single newline.  And for the
directive-free document `A` with the registry containing `__ALL__`, that
target's output is `A\nA\n` (the shared bucket counted twice), not `A\n`. -/
theorem no_directive_roundtrip_counterexample :
    run ["A".toList, "".toList] ["x".toList]
      = Except.ok [("x".toList, "A\n".toList)] ∧
    joinNL ["A".toList, "".toList] ++ ['\n'] = "A\n\n".toList ∧
    "A\n".toList ≠ "A\n\n".toList ∧
    run ["A".toList] [ALL] = Except.ok [(ALL, "A\nA\n".toList)] ∧
    "A\nA\n".toList ≠ "A\n".toList := by
  decide

/-- C4 (amended): for every directive-free document and every registry
target other than the internal shared identifier `__ALL__`, the composed
output is the document's lines joined by single newlines with trailing
whitespace stripped plus exactly one newline; when the joined document has
no trailing whitespace this is exactly the lossless round-trip of the
lines, joined plus one trailing newline. -/
theorem no_directive_compose (doc reg : List Line) (t : Line)
    (hnd : ∀ l ∈ doc, isDirective l = false) (ht : t ∈ reg) (hta : t ≠ ALL) :
    ∃ b, parse_base_file doc = Except.ok b ∧
      compose b t = rstrip (joinNL doc) ++ ['\n'] ∧
      (rstrip (joinNL doc) = joinNL doc → compose b t = joinNL doc ++ ['\n']) := by
  have hp := procList_content doc hnd initState
  have hAll : getD (appendAllLines [(ALL, [])] [ALL] doc) ALL = doc := by
    rw [getD_appendAllLines_mem doc [(ALL, [])] [ALL] ALL (by simp) (by simp)]
    rfl
  have hne : ¬(ALL = t) := fun h => hta h.symm
  have ht' : getB (appendAllLines [(ALL, [])] [ALL] doc) t = none := by
    rw [getB_appendAllLines_not_mem doc [(ALL, [])] [ALL] t (by simp [hta])]
    simp [getB, hne]
  have hc : compose (appendAllLines [(ALL, [])] [ALL] doc) t
      = rstrip (joinNL doc) ++ ['\n'] := by
    rw [compose, hAll, getD, ht']
    simp
  refine ⟨appendAllLines [(ALL, [])] [ALL] doc, ?_, hc, fun hrs => by rw [hc, hrs]⟩
  rw [parse_base_file, hp]
  rfl

/-- C4 witness: the directive-free document `A` with registry `{x}`. -/
theorem no_directive_compose_witness :
    ((∀ l ∈ (["A".toList] : List Line), isDirective l = false) ∧
     "x".toList ∈ (["x".toList] : List Line) ∧ "x".toList ≠ ALL) ∧
    (∃ b, parse_base_file ["A".toList] = Except.ok b ∧
      compose b "x".toList = rstrip (joinNL ["A".toList]) ++ ['\n'] ∧
      (rstrip (joinNL ["A".toList]) = joinNL ["A".toList] →
        compose b "x".toList = joinNL ["A".toList] ++ ['\n'])) :=
  ⟨⟨by decide, by decide, by decide⟩,
    no_directive_compose ["A".toList] ["x".toList] "x".toList
      (by decide) (by decide) (by decide)⟩

/-- C5: a second Open directive replaces the active scope: content lines
between it and the next directive are appended exactly to the buckets of
the identifiers it names, and the bucket of an identifier named only by
the first Open directive is left completely unchanged by those lines. -/
theorem open_replaces_scope (st : ParseState) (o1 o2 : Line)
    (mid post : List Line) (id : Line)
    (h1 : startsWith o1 openMarker = true) (h1e : parseEditors o1 ≠ [])
    (h2 : startsWith o2 openMarker = true) (h2e : parseEditors o2 ≠ [])
    (hmid : ∀ c ∈ mid, isDirective c = false)
    (hpost : ∀ c ∈ post, isDirective c = false)
    (hid1 : id ∈ parseEditors o1) (hid2 : id ∉ parseEditors o2) :
    ∃ stA stB, procList st (o1 :: mid ++ [o2]) = Except.ok stA ∧
      procList st (o1 :: mid ++ o2 :: post) = Except.ok stB ∧
      getB stB.buckets id = getB stA.buckets id ∧
      ∀ ed ∈ parseEditors o2, getD stB.buckets ed = getD stA.buckets ed ++ post := by
  have hA : procList st (o1 :: mid ++ [o2]) = Except.ok
      ⟨setdefaults (appendAllLines (setdefaults st.buckets (parseEditors o1))
          (parseEditors o1) mid) (parseEditors o2), parseEditors o2⟩ := by
    rw [List.cons_append, procList_cons_eq, step_open st o1 h1 h1e]
    show procList ⟨setdefaults st.buckets (parseEditors o1), parseEditors o1⟩
      (mid ++ [o2]) = _
    rw [procList_append mid [o2] _ _
      (procList_content' mid hmid (setdefaults st.buckets (parseEditors o1))
        (parseEditors o1))]
    rw [procList_cons_eq, step_open _ o2 h2 h2e]
    rfl
  have hB : procList st (o1 :: mid ++ o2 :: post) = Except.ok
      ⟨appendAllLines (setdefaults (appendAllLines
          (setdefaults st.buckets (parseEditors o1)) (parseEditors o1) mid)
          (parseEditors o2)) (parseEditors o2) post, parseEditors o2⟩ := by
    rw [List.cons_append, procList_cons_eq, step_open st o1 h1 h1e]
    show procList ⟨setdefaults st.buckets (parseEditors o1), parseEditors o1⟩
      (mid ++ o2 :: post) = _
    rw [procList_append mid (o2 :: post) _ _
      (procList_content' mid hmid (setdefaults st.buckets (parseEditors o1))
        (parseEditors o1))]
    rw [procList_cons_eq, step_open _ o2 h2 h2e]
    exact procList_content' post hpost _ _
  exact ⟨_, _, hA, hB,
    getB_appendAllLines_not_mem post _ _ id hid2,
    fun ed hed => getD_appendAllLines_mem post _ _ ed (parseEditors_nodup o2) hed⟩

/-- C5 witness: `::only a` immediately followed by `::only b`, then the
content line `L`: a's bucket is unchanged by `L`, b's bucket receives it. -/
theorem open_replaces_scope_witness :
    (startsWith "::only a".toList openMarker = true ∧
     parseEditors "::only a".toList ≠ [] ∧
     startsWith "::only b".toList openMarker = true ∧
     parseEditors "::only b".toList ≠ [] ∧
     "a".toList ∈ parseEditors "::only a".toList ∧
     "a".toList ∉ parseEditors "::only b".toList) ∧
    (∃ stA stB,
      procList initState ("::only a".toList :: [] ++ ["::only b".toList])
        = Except.ok stA ∧
      procList initState
          ("::only a".toList :: [] ++ "::only b".toList :: ["L".toList])
        = Except.ok stB ∧
      getB stB.buckets "a".toList = getB stA.buckets "a".toList ∧
      ∀ ed ∈ parseEditors "::only b".toList,
        getD stB.buckets ed = getD stA.buckets ed ++ ["L".toList]) :=
  ⟨⟨by decide, by decide, by decide, by decide, by decide, by decide⟩,
    open_replaces_scope initState "::only a".toList "::only b".toList []
      ["L".toList] "a".toList (by decide) (by decide) (by decide) (by decide)
      (by decide) (by decide) (by decide) (by decide)⟩

/-- C7: the claim fails as stated for the registry target `__ALL__`: it is
never mentioned in an Open directive of the document `A`, yet its composed
output is `A\nA\n` (the shared bucket twice), not the shared-only
composition `A\n`. -/
theorem unmentioned_target_counterexample :
    parse_base_file ["A".toList] = Except.ok [(ALL, ["A".toList])] ∧
    (∀ l ∈ (["A".toList] : List Line),
      startsWith l openMarker = true → ALL ∉ parseEditors l) ∧
    compose [(ALL, ["A".toList])] ALL = "A\nA\n".toList ∧
    rstrip (joinNL (getD [(ALL, ["A".toList])] ALL)) ++ ['\n'] = "A\n".toList ∧
    "A\nA\n".toList ≠ "A\n".toList := by
  decide

/-- C7 (amended): every registry target other than `__ALL__` that is not
mentioned in any Open directive of the document composes to the shared-only
composition, and all such targets receive the identical string; composing a
target with no bucket is total (never an error). -/
theorem unmentioned_target_shared_only (doc : List Line) (b : Buckets)
    (T T' : Line) (hb : parse_base_file doc = Except.ok b)
    (hT : ∀ l ∈ doc, startsWith l openMarker = true → T ∉ parseEditors l)
    (hTA : T ≠ ALL)
    (hT' : ∀ l ∈ doc, startsWith l openMarker = true → T' ∉ parseEditors l)
    (hTA' : T' ≠ ALL) :
    compose b T = rstrip (joinNL (getD b ALL)) ++ ['\n'] ∧
    compose b T = compose b T' := by
  obtain ⟨st', hp, rfl⟩ := parse_ok_elim doc b hb
  have hneT : ¬(ALL = T) := fun h => hTA h.symm
  have hneT' : ¬(ALL = T') := fun h => hTA' h.symm
  have hTcur : T ∉ initState.current := by simp [initState, hTA]
  have hTn : getB st'.buckets T = none :=
    (not_mentioned_procList doc initState st' T hp hT hTA hTcur
      (by simp [initState, getB, hneT])).2
  have hTcur' : T' ∉ initState.current := by simp [initState, hTA']
  have hTn' : getB st'.buckets T' = none :=
    (not_mentioned_procList doc initState st' T' hp hT' hTA' hTcur'
      (by simp [initState, getB, hneT'])).2
  have e1 : getD st'.buckets T = [] := by rw [getD, hTn]; rfl
  have e2 : getD st'.buckets T' = [] := by rw [getD, hTn']; rfl
  constructor
  · rw [compose, e1, List.append_nil]
  · rw [compose, compose, e1, e2]

/-- C7 witness: targets x and y in a registry for the directive-free
document `A` both compose to the shared-only output. -/
theorem unmentioned_target_shared_only_witness :
    parse_base_file ["A".toList] = Except.ok [(ALL, ["A".toList])] ∧
    (compose [(ALL, ["A".toList])] "x".toList
        = rstrip (joinNL (getD [(ALL, ["A".toList])] ALL)) ++ ['\n'] ∧
     compose [(ALL, ["A".toList])] "x".toList
        = compose [(ALL, ["A".toList])] "y".toList) :=
  ⟨by decide,
    unmentioned_target_shared_only ["A".toList] [(ALL, ["A".toList])]
      "x".toList "y".toList (by decide) (by decide) (by decide) (by decide)
      (by decide)⟩

/-- C8: for every successfully parsed document the returned bucket map has
an entry for the shared identifier and an entry (possibly empty) for every
identifier that appeared in any Open directive; since the document here
ranges over arbitrary line lists, this holds after processing any prefix
of any document as well. -/
theorem buckets_entry_invariant (doc : List Line) (b : Buckets)
    (h : parse_base_file doc = Except.ok b) :
    (getB b ALL).isSome = true ∧
    ∀ l ∈ doc, startsWith l openMarker = true →
      ∀ ed ∈ parseEditors l, (getB b ed).isSome = true := by
  obtain ⟨st', hp, rfl⟩ := parse_ok_elim doc b h
  constructor
  · exact getB_isSome_procList doc initState st' ALL hp (by decide)
  · exact open_creates_entries doc initState st' hp

/-- C8 witness: the document consisting of the single line `::only x`
assigns no line to x, yet x's bucket exists (and is empty). -/
theorem buckets_entry_invariant_witness :
    parse_base_file ["::only x".toList]
      = Except.ok [(ALL, []), ("x".toList, [])] ∧
    ((getB [(ALL, []), ("x".toList, [])] ALL).isSome = true ∧
     ∀ l ∈ (["::only x".toList] : List Line),
       startsWith l openMarker = true →
         ∀ ed ∈ parseEditors l,
           (getB [(ALL, []), ("x".toList, [])] ed).isSome = true) :=
  ⟨by decide,
    buckets_entry_invariant ["::only x".toList] [(ALL, []), ("x".toList, [])]
      (by decide)⟩

/-- C10: the directive `::only __ALL__` scopes the following content lines
to the shared identifier itself: they are appended to the shared bucket,
every other bucket is untouched, and they therefore appear in the shared
part of every target's composed output. -/
theorem only_all_goes_to_shared (st : ParseState) (post : List Line)
    (hpost : ∀ c ∈ post, isDirective c = false) :
    ∃ st', procList st ("::only __ALL__".toList :: post) = Except.ok st' ∧
      st'.current = [ALL] ∧
      getD st'.buckets ALL = getD st.buckets ALL ++ post ∧
      (∀ ed, ed ≠ ALL → getB st'.buckets ed = getB st.buckets ed) ∧
      (∀ ed, compose st'.buckets ed =
        rstrip (joinNL (getD st.buckets ALL ++ post ++ getD st'.buckets ed))
          ++ ['\n']) := by
  have hpe : parseEditors "::only __ALL__".toList = [ALL] := by decide
  have hsw : startsWith "::only __ALL__".toList openMarker = true := by decide
  have hstep := step_open st "::only __ALL__".toList hsw
    (by rw [hpe]; exact fun hc => List.noConfusion hc)
  rw [hpe] at hstep
  have hAllD : getD (appendAllLines (setdefaults st.buckets [ALL]) [ALL] post) ALL
      = getD st.buckets ALL ++ post := by
    rw [getD_appendAllLines_mem post _ [ALL] ALL (by simp) (by simp)]
    show getD (setdefault st.buckets ALL) ALL ++ post = _
    rw [getD, getB_setdefault_self]
    rfl
  refine ⟨⟨appendAllLines (setdefaults st.buckets [ALL]) [ALL] post, [ALL]⟩,
    ?_, rfl, hAllD, ?_, ?_⟩
  · rw [procList_cons_eq, hstep]
    exact procList_content' post hpost _ _
  · intro ed hed
    rw [getB_appendAllLines_not_mem post _ [ALL] ed (by simp [hed])]
    show getB (setdefault st.buckets ALL) ed = getB st.buckets ed
    exact getB_setdefault_ne st.buckets ALL ed hed
  · intro ed
    rw [compose, hAllD]

/-- C10 witness: from the initial state, `::only __ALL__` followed by the
content line `S` puts `S` in the shared bucket. -/
theorem only_all_goes_to_shared_witness :
    (∀ c ∈ (["S".toList] : List Line), isDirective c = false) ∧
    (∃ st', procList initState ("::only __ALL__".toList :: ["S".toList])
        = Except.ok st' ∧
      st'.current = [ALL] ∧
      getD st'.buckets ALL = getD initState.buckets ALL ++ ["S".toList] ∧
      (∀ ed, ed ≠ ALL → getB st'.buckets ed = getB initState.buckets ed) ∧
      (∀ ed, compose st'.buckets ed =
        rstrip (joinNL (getD initState.buckets ALL ++ ["S".toList]
          ++ getD st'.buckets ed)) ++ ['\n'])) :=
  ⟨by decide, only_all_goes_to_shared initState ["S".toList] (by decide)⟩

end SyncRules
